import Mathlib

/-!
Shallow embedding of the heuristic document segmentation engine of
`convert_book_to_json.py` and the `chunk_text` helper of
`script_construct.py`, together with proofs settling the frozen claims.

Strings are modelled as `List Char`.  Python's `\w`, `\s`, `\d`, `[A-Z]`,
`[a-z]` character classes are modelled over ASCII (the claims and all
counterexamples live in ASCII).  Python integers are `Int` where a
subtraction could go negative, otherwise `Nat`.
-/

namespace BookConv

/-- Python `\s` (ASCII range): space, tab, newline, carriage return,
vertical tab, form feed. Also the set stripped by `str.strip()`. -/
def isPySpace (c : Char) : Bool :=
  c = ' ' || c = '\t' || c = '\n' || c = '\r' || c = '\x0b' || c = '\x0c'

/-- Python `\w` (ASCII range): letters, digits, underscore. -/
def isWordChar (c : Char) : Bool :=
  c.isAlphanum || c = '_'

/-- The fixed punctuation set of `clean_text`'s keep-filter:
`. , ! ? ; : ' " ( ) -` (quote and double quote written by code point). -/
def isKeptPunct (c : Char) : Bool :=
  c = '.' || c = ',' || c = '!' || c = '?' || c = ';' || c = ':' ||
  c = Char.ofNat 39 || c = Char.ofNat 34 || c = '(' || c = ')' || c = '-'

/-- A character survives the final filter `re.sub(r'[^\w\s.,!?;:\x27"()-]', '', ...)`
of `clean_text` iff this predicate holds. -/
def keepChar (c : Char) : Bool :=
  isWordChar c || isPySpace c || isKeptPunct c

/-- Python `str.strip()`: drop leading and trailing whitespace. -/
def stripL (l : List Char) : List Char :=
  ((l.dropWhile isPySpace).reverse.dropWhile isPySpace).reverse

/-- Python `re.sub(r'\s+', ' ', ·)`: replace every maximal whitespace run
by a single space. -/
def collapseWs : List Char → List Char
  | [] => []
  | [c] => if isPySpace c then [' '] else [c]
  | c :: d :: rest =>
    if isPySpace c then
      if isPySpace d then collapseWs (d :: rest)
      else ' ' :: collapseWs (d :: rest)
    else c :: collapseWs (d :: rest)

/-- Opening annotation delimiter `⟪` (U+27EA) of `clean_text`. -/
def spanOpen : Char := Char.ofNat 0x27EA

/-- Closing annotation delimiter `⟫` (U+27EB) of `clean_text`. -/
def spanClose : Char := Char.ofNat 0x27EB

/-- Drop everything up to and including the first `⟫`; `none` if there is
no `⟫` (then the regex `⟪[^⟫]*⟫` has no match starting here). -/
def dropThroughClose (l : List Char) : Option (List Char) :=
  match l.dropWhile (fun c => c ≠ spanClose) with
  | [] => none
  | _ :: rest => some rest

/-- Fuel-indexed worker for `re.sub(r'⟪[^⟫]*⟫', '', ·)`: leftmost match
consumes from a `⟪` through the first following `⟫`; a `⟪` without a
later `⟫` is kept.  The fuel only bounds recursion depth; it is at least
the list length at every call, so the `0` case is never reached. -/
def removeSpansFuel : Nat → List Char → List Char
  | 0, _ => []
  | _ + 1, [] => []
  | n + 1, c :: rest =>
    if c = spanOpen then
      match dropThroughClose rest with
      | some rest2 => removeSpansFuel n rest2
      | none => c :: removeSpansFuel n rest
    else c :: removeSpansFuel n rest

/-- Python `re.sub(r'⟪[^⟫]*⟫', '', ·)`. -/
def removeSpans (l : List Char) : List Char :=
  removeSpansFuel l.length l

/-- Model of `clean_text` (convert_book_to_json.py, lines 13–20): strip, collapse
whitespace runs to single spaces, delete `⟪…⟫` annotation spans, then
delete every character outside the kept set. -/
def clean_text (t : List Char) : List Char :=
  List.filter keepChar (removeSpans (collapseWs (stripL t)))

/-- Worker for Python `str.split()` (no separator): accumulate the current
word (reversed) and emit it at each whitespace or at the end. -/
def splitWsAux : List Char → List Char → List (List Char)
  | [], acc => if acc.isEmpty then [] else [acc.reverse]
  | c :: rest, acc =>
    if isPySpace c then
      if acc.isEmpty then splitWsAux rest []
      else acc.reverse :: splitWsAux rest []
    else splitWsAux rest (c :: acc)

/-- Python `str.split()` with no arguments: whitespace-separated words,
no empty words. -/
def splitWs (l : List Char) : List (List Char) :=
  splitWsAux l []

/-- Python `content.split('\n')`: split on newline; the empty string
yields one empty line. -/
def splitLines : List Char → List (List Char)
  | [] => [[]]
  | c :: rest =>
    match splitLines rest with
    | [] => [[c]]
    | h :: t => if c = '\n' then [] :: h :: t else (c :: h) :: t

/-- Python `'\n'.join(lines)`. -/
def joinLines : List (List Char) → List Char
  | [] => []
  | [l] => l
  | l :: l2 :: rest => l ++ '\n' :: joinLines (l2 :: rest)

/-- Python `[A-Z]`. -/
def isUpperAZ (c : Char) : Bool := 'A' ≤ c && c ≤ 'Z'

/-- Python `[a-z]`. -/
def isLowerAZ (c : Char) : Bool := 'a' ≤ c && c ≤ 'z'

/-- Python `\d` (ASCII range). -/
def isDigit09 (c : Char) : Bool := '0' ≤ c && c ≤ '9'

/-- Pattern `re.match(r'^[A-Z][A-Z\s]+$', ·)`: an uppercase letter followed by one
or more uppercase letters or whitespace, to the end of the line. -/
def allCapsPat : List Char → Bool
  | [] => false
  | c :: rest =>
    isUpperAZ c && !rest.isEmpty && rest.all (fun d => isUpperAZ d || isPySpace d)

/-- Pattern `re.match(r'^[A-Z][a-z\s]{n,}$', ·)`: an uppercase letter followed by
at least `n` lowercase letters or whitespace, to the end of the line
(`n = 15` in Policy A, `n = 10` in Policy B). -/
def longTitlePat (n : Nat) : List Char → Bool
  | [] => false
  | c :: rest =>
    isUpperAZ c && decide (n ≤ rest.length) &&
      rest.all (fun d => isLowerAZ d || isPySpace d)

/-- Pattern `re.match(r'^W\s+\d+', ·)` for a literal word `W` (`Chapter`, `Part`,
`Section`, `Story`): the word, at least one whitespace, then a digit
(`re.match` only anchors at the start, the rest of the line is free). -/
def litNumPat (w : List Char) (l : List Char) : Bool :=
  if l.take w.length = w then
    let rest := l.drop w.length
    let ws := rest.takeWhile isPySpace
    !ws.isEmpty &&
      (match rest.drop ws.length with
       | c :: _ => isDigit09 c
       | [] => false)
  else false

/-- Pattern `re.match(r'^[A-Z][a-z\s]+:$', ·)`: an uppercase letter, one or more
lowercase letters or whitespace, then a colon at the end of the line. -/
def titleColonPat : List Char → Bool
  | [] => false
  | c :: rest =>
    isUpperAZ c && decide (2 ≤ rest.length) && rest.getLast? == some ':' &&
      rest.dropLast.all (fun d => isLowerAZ d || isPySpace d)

/-- Policy A's `story_indicators` (lines 66–72); the loop takes the first
matching pattern but every pattern triggers the same action, so a line is
a candidate iff some pattern matches. -/
def storyMatch (l : List Char) : Bool :=
  longTitlePat 15 l || litNumPat "Chapter".data l || litNumPat "Part".data l ||
  litNumPat "Story".data l || allCapsPat l

/-- Policy B's `section_patterns` (lines 28–36). -/
def sectionMatch (l : List Char) : Bool :=
  allCapsPat l || titleColonPat l || litNumPat "Chapter".data l ||
  litNumPat "Part".data l || litNumPat "Section".data l ||
  litNumPat "Story".data l || longTitlePat 10 l

/-- A detected heading: stripped title, 1-based heading line number,
1-based content-start line (`start_content` in the source dictionaries). -/
structure Marker where
  title : List Char
  line : Nat
  startContent : Nat
deriving DecidableEq, Repr

/-- Number of leading lines that are blank after stripping (the
`while ... not lines[content_start].strip()` skip loop). -/
def countBlank : List (List Char) → Nat
  | [] => 0
  | l :: rest => if (stripL l).isEmpty then countBlank rest + 1 else 0

/-- The 0-based index of the first non-blank line at or after index `j`
(`len lines` if every remaining line is blank). -/
def contentStart (lines : List (List Char)) (j : Nat) : Nat :=
  j + countBlank (lines.drop j)

/-- The marker dictionary built for a heading at 0-based line index `i`. -/
def markerAt (lines : List (List Char)) (i : Nat) : Marker :=
  ⟨stripL (lines.getD i []), i + 1, contentStart lines (i + 1) + 1⟩

/-- Model of `detect_story_boundaries` (lines 60–96), Policy A: lines whose
stripped form has length ≥ 10 and matches a story pattern become markers,
but only when `content_start < len(lines) - 10` (Python int arithmetic,
hence the cast to `Int`). -/
def detect_story_boundaries (content : List Char) : List Marker :=
  let lines := splitLines content
  (List.range lines.length).filterMap (fun i =>
    if (stripL (lines.getD i [])).length < 10 then none
    else if storyMatch (stripL (lines.getD i [])) then
      if (contentStart lines (i + 1) : Int) < (lines.length : Int) - 10 then
        some (markerAt lines i)
      else none
    else none)

/-- Model of `detect_section_patterns` (lines 22–58), Policy B: every non-blank
line matching a section pattern becomes a marker, unconditionally. -/
def detect_section_patterns (content : List Char) : List Marker :=
  let lines := splitLines content
  (List.range lines.length).filterMap (fun i =>
    if (stripL (lines.getD i [])).isEmpty then none
    else if sectionMatch (stripL (lines.getD i [])) then some (markerAt lines i)
    else none)

/-- One output section dictionary of `extract_content_sections`. -/
structure Section where
  type : List Char
  title : List Char
  content : List Char
  startLine : Nat
  endLine : Nat
  wordCount : Nat
  charCount : Nat
deriving DecidableEq, Repr

/-- The per-marker loop of `extract_content_sections` (lines 124–152):
a section runs from its marker's content-start to the next marker's
content-start (exclusive) or the end of the document; sections whose
cleaned content has fewer than 50 words are dropped. -/
def sectionsFrom (lines : List (List Char)) : List Marker → List Section
  | [] => []
  | m :: rest =>
    let startLine := m.startContent - 1
    let endLine :=
      match rest with
      | [] => lines.length
      | m2 :: _ => m2.startContent - 1
    let cleaned := clean_text (joinLines ((lines.drop startLine).take (endLine - startLine)))
    if (splitWs cleaned).length < 50 then sectionsFrom lines rest
    else
      ⟨"story".data, m.title, cleaned, startLine + 1, endLine,
        (splitWs cleaned).length, cleaned.length⟩ :: sectionsFrom lines rest

/-- Model of `extract_content_sections` (lines 98–154): Policy A, falling back to
Policy B, falling back to a single whole-document section. -/
def extract_content_sections (content : List Char) : List Section :=
  let lines := splitLines content
  let stories :=
    match detect_story_boundaries content with
    | [] => detect_section_patterns content
    | s => s
  match stories with
  | [] =>
    [⟨"content".data, "Full Content".data, clean_text content, 1, lines.length,
      (splitWs (clean_text content)).length, (clean_text content).length⟩]
  | _ => sectionsFrom lines stories

/-- The `statistics` object of the final JSON (lines 198–203). -/
structure BookStats where
  totalSections : Nat
  stories : Nat
  totalWords : Nat
  totalCharacters : Nat
deriving DecidableEq, Repr

/-- The `statistics` object as computed in `convert_book_to_json` (lines 198–203). -/
def mkStatistics (secs : List Section) : BookStats :=
  ⟨secs.length, (secs.filter (fun s => s.type == "story".data)).length,
   (secs.map Section.wordCount).sum, (secs.map Section.charCount).sum⟩

/-- Final path component (`pathlib` name): everything after the last `/`. -/
def afterLastSlash (p : List Char) : List Char :=
  (p.reverse.takeWhile (fun c => c ≠ '/')).reverse

/-- The 0-based index of the last `.` in a list, if any. -/
def lastDotIdx (l : List Char) : Option Nat :=
  ((l.enum.filter (fun q => q.2 == '.')).getLast?).map (fun q => q.1)

/-- Model of `pathlib.Path(·).stem`: the final component without its suffix; a
suffix exists only when the last dot is neither the first nor the last
character of the name. -/
def pyStem (p : List Char) : List Char :=
  let base := afterLastSlash p
  match lastDotIdx base with
  | some i => if 0 < i ∧ i < base.length - 1 then base.take i else base
  | none => base

/-- Worker for Python `str.title()`: an alphabetic character is
uppercased after a non-cased character, lowercased after a cased one. -/
def pyTitleGo : Bool → List Char → List Char
  | _, [] => []
  | prevCased, c :: rest =>
    if c.isAlpha then
      (if prevCased then c.toLower else c.toUpper) :: pyTitleGo true rest
    else c :: pyTitleGo false rest

/-- Python `str.title()` (ASCII model). -/
def pyTitle (l : List Char) : List Char := pyTitleGo false l

/-- The `metadata` object (lines 156–170). -/
structure Metadata where
  title : List Char
  sourceFile : List Char
  totalSections : Nat
  stories : Nat
  conversionDate : List Char
  conversionNotes : List Char
deriving DecidableEq, Repr

/-- Model of `create_book_metadata` (lines 156–170): title from the input file's
stem with underscores replaced by spaces and title-cased. -/
def create_book_metadata (inputFile : List Char) (secs : List Section) : Metadata :=
  ⟨pyTitle ((pyStem inputFile).map (fun c => if c = '_' then ' ' else c)),
   inputFile, secs.length,
   (secs.filter (fun s => s.type == "story".data)).length,
   "2024".data,
   "Converted from text format to structured JSON using automatic section detection".data⟩

/-- The full structured document (`book_json`, lines 195–204). -/
structure BookJson where
  metadata : Metadata
  sections : List Section
  statistics : BookStats
deriving DecidableEq, Repr

/-- Assembly of the structured document from the input file's text
(lines 189–204). -/
def assembleBook (inputFile content : List Char) : BookJson :=
  let secs := extract_content_sections content
  ⟨create_book_metadata inputFile secs, secs, mkStatistics secs⟩

/-- Explicit file-system state for the conversion: readable text files
and the structured documents written so far.  `json.dump` of the fully
assembled in-memory document is modelled as one atomic addition to
`written`. -/
structure IOState where
  files : List (List Char × List Char)
  written : List (List Char × BookJson)
deriving DecidableEq, Repr

/-- Model of `open(name, 'r')` plus `read()`: the stored text, or a
`FileNotFoundError` signalled by `none`.  (The `latin-1` decoding
fallback is invisible here because file contents are already text.) -/
def lookupFile (files : List (List Char × List Char)) (name : List Char) :
    Option (List Char) :=
  (files.find? (fun q => q.1 == name)).map (fun q => q.2)

/-- The exception `main` distinguishes (lines 258–260). -/
inductive ConvError where
  | fileNotFound
deriving DecidableEq, Repr

/-- Model of `convert_book_to_json` (lines 172–215) over the explicit state:
reading a missing input raises `FileNotFoundError` before anything is
written; otherwise the whole structured document is assembled in memory
and then written once. -/
def convert_book_to_json (st : IOState) (inputFile outputFile : List Char) :
    Except ConvError IOState :=
  match lookupFile st.files inputFile with
  | none => Except.error ConvError.fileNotFound
  | some content =>
    Except.ok { st with written := (outputFile, assembleBook inputFile content) :: st.written }

/-- The distinct file-not-found report of `main` (line 259). -/
def fnfMessage (inputFile : List Char) : List Char :=
  "Error: Could not find input file ".data ++ inputFile

/-- The success report of `main` (line 253). -/
def doneMessage : List Char := "Conversion completed!".data

/-- The `try/except` of `main` (lines 233–262) around one conversion:
`FileNotFoundError` is caught and reported distinctly, leaving the state
untouched; on success the new state is returned (the optional
`--individual` re-read pass is not modelled). -/
def mainModel (st : IOState) (inputFile outputFile : List Char) : IOState × List Char :=
  match convert_book_to_json st inputFile outputFile with
  | Except.error ConvError.fileNotFound => (st, fnfMessage inputFile)
  | Except.ok st2 => (st2, doneMessage)

/-- Python `" ".join(words)`. -/
def joinWords : List (List Char) → List Char
  | [] => []
  | [w] => w
  | w :: w2 :: rest => w ++ ' ' :: joinWords (w2 :: rest)

/-- The packing loop of `chunk_text` (script_construct.py, lines 16–35):
`cur` is `current_chunk`, `size` is `current_size`; the
`and current_chunk` guard keeps an oversized first word in a chunk of
its own. -/
def chunkGo (chunkSize : Int) : List (List Char) → List (List Char) → Int → List (List Char)
  | [], cur, _ => if cur.isEmpty then [] else [joinWords cur]
  | w :: ws, cur, size =>
    if size + w.length + 1 > chunkSize ∧ cur ≠ [] then
      joinWords cur :: chunkGo chunkSize ws [w] (w.length : Int)
    else chunkGo chunkSize ws (cur ++ [w]) (size + w.length + 1)

/-- Model of `chunk_text` (script_construct.py, lines 16–35). -/
def chunk_text (text : List Char) (chunkSize : Int) : List (List Char) :=
  chunkGo chunkSize (splitWs text) [] 0

/-- Built from C2's words, NOT from the source: the pattern set the claim
says Policy B uses — Policy A's set with the ≥ 15-character floor removed
from the title-case pattern, plus a title-case line ending in a colon.
Compared against the source's `sectionMatch`. -/
def claimedSectionMatch (l : List Char) : Bool :=
  longTitlePat 0 l || litNumPat "Chapter".data l || litNumPat "Part".data l ||
  litNumPat "Story".data l || allCapsPat l || titleColonPat l

/-- Built from C2's words, NOT from the source: Policy B as the claim
describes it — every line matching `claimedSectionMatch` becomes a
marker, with no further guard. -/
def claimedSectionDetect (content : List Char) : List Marker :=
  let lines := splitLines content
  (List.range lines.length).filterMap (fun i =>
    if (stripL (lines.getD i [])).isEmpty then none
    else if claimedSectionMatch (stripL (lines.getD i [])) then some (markerAt lines i)
    else none)

/-- Two adjacent whitespace characters somewhere in the list (the shape
C5 claims never occurs in `clean_text`'s output). -/
def hasDoubleWs : List Char → Bool
  | c :: d :: rest => (isPySpace c && isPySpace d) || hasDoubleWs (d :: rest)
  | _ => false

/-- C4's claimed output alphabet: alphanumeric, whitespace, or the fixed
punctuation set (note: underscore is NOT in this set). -/
def c4Allowed (c : Char) : Bool :=
  c.isAlphanum || isPySpace c || isKeptPunct c

/-- C5's claimed output shape: no whitespace run of length ≥ 2, no
newline, no leading and no trailing whitespace. -/
def c5ClaimOk (l : List Char) : Bool :=
  !hasDoubleWs l && l.all (fun c => !(c == '\n')) &&
  (match l.head? with | some c => !isPySpace c | none => true) &&
  (match l.getLast? with | some c => !isPySpace c | none => true)

/-- Python `"word " * n`. -/
def wordRep : Nat → List Char
  | 0 => []
  | n + 1 => "word ".data ++ wordRep n

/-- C1's input text:
`"CHAPTER ONE\n\n" + ("word " * 60) + "\n\nCHAPTER TWO\n\n" + ("word " * 60)`. -/
def c1input : List Char :=
  "CHAPTER ONE\n\n".data ++ wordRep 60 ++ "\n\nCHAPTER TWO\n\n".data ++ wordRep 60

/-- A document with one Policy-A heading followed by 12 one-word lines:
the marker survives the trailing-content guard but the resulting section
has only 12 words and is dropped. -/
def c9input : List Char :=
  "CHAPTER ONE\n".data ++ joinLines (List.replicate 12 "x".data)



set_option maxRecDepth 40000 in
/-- C1: on the input `"CHAPTER ONE\n\n" + ("word " * 60) + "\n\nCHAPTER TWO\n\n"
+ ("word " * 60)` the segmentation pipeline yields exactly two segments,
both of kind STORY (`"story"`), titled `CHAPTER ONE` and `CHAPTER TWO` in
that order, with word counts approximately 60 — exactly 62 and 60: the
first segment's raw span runs up to the second marker's content-start and
so still contains the `CHAPTER TWO` heading line, adding two words. -/
theorem claim1_two_story_segments :
    (extract_content_sections c1input).map (fun s => (s.type, s.title, s.wordCount)) =
      [("story".data, "CHAPTER ONE".data, 62), ("story".data, "CHAPTER TWO".data, 60)] ∧
    (extract_content_sections c1input).length = 2 ∧
    ∀ s ∈ extract_content_sections c1input, 54 ≤ s.wordCount ∧ s.wordCount ≤ 66 := by
  refine ⟨?_, ?_, ?_⟩ <;> decide

/-- C9: there is an input on which boundary detection finds a marker yet
`extract_content_sections` returns the empty list (the only section has
fewer than 50 words and is dropped, and the full-document fallback is not
reached because boundaries were found), so the structured document can
carry zero sections and all-zero statistics. -/
theorem claim9_all_sections_dropped :
    detect_story_boundaries c9input ≠ [] ∧
    extract_content_sections c9input = [] ∧
    mkStatistics (extract_content_sections c9input) = ⟨0, 0, 0, 0⟩ := by
  refine ⟨?_, ?_, ?_⟩ <;> decide

/-- C6: when neither detection policy produces a marker,
`extract_content_sections` returns exactly the one full-document section:
kind FULL_DOCUMENT (`"content"`), title `Full Content`, `start_line = 1`,
`end_line` the total number of lines, content the normalization of the
whole text — retained regardless of its word count, so the result is
never empty in this case. -/
theorem claim6_full_document_fallback (content : List Char)
    (hA : detect_story_boundaries content = [])
    (hB : detect_section_patterns content = []) :
    extract_content_sections content =
      [⟨"content".data, "Full Content".data, clean_text content, 1,
        (splitLines content).length, (splitWs (clean_text content)).length,
        (clean_text content).length⟩] := by
  unfold extract_content_sections
  rw [hA, hB]

theorem claim6_witness :
    extract_content_sections "hello".data =
      [⟨"content".data, "Full Content".data, clean_text "hello".data, 1,
        (splitLines "hello".data).length, (splitWs (clean_text "hello".data)).length,
        (clean_text "hello".data).length⟩] :=
  claim6_full_document_fallback "hello".data (by decide) (by decide)

/-- C4 is false as stated: `clean_text` keeps every Python `\w` character,
and `\w` includes the underscore, which is neither alphanumeric nor
whitespace nor in the punctuation set; the input `"_"` is returned
unchanged. -/
theorem claim4_counterexample :
    clean_text "_".data = "_".data ∧
    (clean_text "_".data).all c4Allowed = false := by
  refine ⟨?_, ?_⟩ <;> decide

/-- C4 amended: every character of `clean_text`'s output is alphanumeric,
an underscore, whitespace, or one of `. , ! ? ; : ' " ( ) -`. -/
theorem claim4_amended (t : List Char) :
    (clean_text t).all
      (fun c => c.isAlphanum || c = '_' || isPySpace c || isKeptPunct c) = true := by
  rw [List.all_eq_true]
  intro c hc
  have hk : keepChar c = true := (List.mem_filter.mp hc).2
  simp only [keepChar, isWordChar, Bool.or_assoc] at hk ⊢
  exact hk

/-- C2 is false as stated: Policy B's pattern set also contains
`^Section\s+\d+`, which is not in Policy A's set and is not the
title-case-colon addition.  On `"Section 1\nbody"` the source's
`detect_section_patterns` produces a marker while the claim's described
pattern set matches nothing. -/
theorem claim2_counterexample :
    sectionMatch "Section 1".data = true ∧
    claimedSectionMatch "Section 1".data = false ∧
    detect_section_patterns "Section 1\nbody".data = [⟨"Section 1".data, 1, 2⟩] ∧
    claimedSectionDetect "Section 1\nbody".data = [] := by
  refine ⟨?_, ?_, ?_, ?_⟩ <;> decide

/-- C8: reading a missing input file yields the distinct file-not-found
error, which `main` reports while the file-system state is left exactly
as it was — no output file, not even a partial one; and on a successful
read the only state change is the single atomic write of the completely
assembled structured document. -/
theorem claim8_output_atomicity (st : IOState) (inputFile outputFile : List Char) :
    (lookupFile st.files inputFile = none →
      convert_book_to_json st inputFile outputFile = Except.error ConvError.fileNotFound ∧
      mainModel st inputFile outputFile = (st, fnfMessage inputFile)) ∧
    (∀ content, lookupFile st.files inputFile = some content →
      mainModel st inputFile outputFile =
        ({ st with written := (outputFile, assembleBook inputFile content) :: st.written },
          doneMessage)) := by
  constructor
  · intro h
    constructor
    · unfold convert_book_to_json
      rw [h]
    · unfold mainModel convert_book_to_json
      rw [h]
  · intro content h
    unfold mainModel convert_book_to_json
    rw [h]

theorem claim8_witness :
    mainModel ⟨[], []⟩ "book.txt".data "out.json".data =
      (⟨[], []⟩, fnfMessage "book.txt".data) :=
  ((claim8_output_atomicity ⟨[], []⟩ "book.txt".data "out.json".data).1 rfl).2



/-- Membership characterization of Policy B: a marker is produced exactly
for the non-blank lines matching `sectionMatch`, with no further guard. -/
theorem mem_detect_section_patterns (content : List Char) (m : Marker) :
    m ∈ detect_section_patterns content ↔
      ∃ i, i < (splitLines content).length ∧
        stripL ((splitLines content).getD i []) ≠ [] ∧
        sectionMatch (stripL ((splitLines content).getD i [])) = true ∧
        markerAt (splitLines content) i = m := by
  simp only [detect_section_patterns, List.mem_filterMap, List.mem_range]
  constructor
  · rintro ⟨i, hi, hf⟩
    split at hf
    next h1 => exact absurd hf (by simp)
    next h1 =>
      split at hf
      next h2 => exact ⟨i, hi, by simpa using h1, h2, Option.some_inj.mp hf⟩
      next h2 => exact absurd hf (by simp)
  · rintro ⟨i, hi, h1, h2, hm⟩
    refine ⟨i, hi, ?_⟩
    rw [if_neg (by simpa using h1), if_pos h2, hm]

/-- Membership characterization of Policy A: a marker is produced exactly
for the lines of stripped length ≥ 10 matching `storyMatch` that pass the
trailing-content guard `content_start < len(lines) - 10`. -/
theorem mem_detect_story_boundaries (content : List Char) (m : Marker) :
    m ∈ detect_story_boundaries content ↔
      ∃ i, i < (splitLines content).length ∧
        ¬(stripL ((splitLines content).getD i [])).length < 10 ∧
        storyMatch (stripL ((splitLines content).getD i [])) = true ∧
        ((contentStart (splitLines content) (i + 1) : Int) <
          ((splitLines content).length : Int) - 10) ∧
        markerAt (splitLines content) i = m := by
  simp only [detect_story_boundaries, List.mem_filterMap, List.mem_range]
  constructor
  · rintro ⟨i, hi, hf⟩
    split at hf
    next h1 => exact absurd hf (by simp)
    next h1 =>
      split at hf
      next h2 =>
        split at hf
        next h3 => exact ⟨i, hi, h1, h2, h3, Option.some_inj.mp hf⟩
        next h3 => exact absurd hf (by simp)
      next h2 => exact absurd hf (by simp)
  · rintro ⟨i, hi, h1, h2, h3, hm⟩
    refine ⟨i, hi, ?_⟩
    rw [if_neg h1, if_pos h2, if_pos h3, hm]

/-- C2 amended: Policy B's set is Policy A's with the title-case floor
lowered from 15 to 10 (not removed), without the trailing-content guard
and without Policy A's ≥ 10-character line floor, plus TWO extra
patterns — a title-case line ending in a colon AND `Section` followed by
a number; every non-blank matching line becomes a marker regardless of
how much content follows it. -/
theorem claim2_policyB_patterns (content : List Char) (m : Marker) :
    m ∈ detect_section_patterns content ↔
      ∃ i, i < (splitLines content).length ∧
        stripL ((splitLines content).getD i []) ≠ [] ∧
        (allCapsPat (stripL ((splitLines content).getD i [])) ||
         titleColonPat (stripL ((splitLines content).getD i [])) ||
         litNumPat "Chapter".data (stripL ((splitLines content).getD i [])) ||
         litNumPat "Part".data (stripL ((splitLines content).getD i [])) ||
         litNumPat "Section".data (stripL ((splitLines content).getD i [])) ||
         litNumPat "Story".data (stripL ((splitLines content).getD i [])) ||
         longTitlePat 10 (stripL ((splitLines content).getD i []))) = true ∧
        markerAt (splitLines content) i = m :=
  mem_detect_section_patterns content m

/-- C3: a line of stripped length ≥ 10 matching a story pattern yields a
marker if and only if at least 10 lines lie strictly after the inferred
content-start line (the source's `content_start < len(lines) - 10` over
Python integers); a matching heading with too little after it yields no
marker. -/
theorem claim3_policyA_guard (content : List Char) (i : Nat)
    (hi : i < (splitLines content).length)
    (hlen : 10 ≤ (stripL ((splitLines content).getD i [])).length)
    (hm : storyMatch (stripL ((splitLines content).getD i [])) = true) :
    markerAt (splitLines content) i ∈ detect_story_boundaries content ↔
      10 ≤ (splitLines content).length - (contentStart (splitLines content) (i + 1) + 1) := by
  rw [mem_detect_story_boundaries]
  constructor
  · rintro ⟨j, hj, hjlen, hjm, hguard, hmk⟩
    have hline : j + 1 = i + 1 := by
      have := congrArg Marker.line hmk
      simpa [markerAt] using this
    have hij : j = i := by omega
    subst hij
    omega
  · intro h
    exact ⟨i, hi, by omega, hm, by omega, rfl⟩

theorem claim3_witness :
    markerAt (splitLines c9input) 0 ∈ detect_story_boundaries c9input :=
  (claim3_policyA_guard c9input 0 (by decide) (by decide) (by decide)).mpr (by decide)


/-- Every section built by the per-marker loop stores as `word_count` the
word count of its own stored `content`, and as `character_count` that
content's length. -/
theorem sectionsFrom_counts (lines : List (List Char)) :
    ∀ ms : List Marker, ∀ s ∈ sectionsFrom lines ms,
      s.wordCount = (splitWs s.content).length ∧ s.charCount = s.content.length := by
  intro ms
  induction ms with
  | nil => intro s hs; simp [sectionsFrom] at hs
  | cons m rest ih =>
    intro s hs
    simp only [sectionsFrom] at hs
    split at hs
    · exact ih s hs
    · rcases List.mem_cons.mp hs with rfl | h
      · exact ⟨rfl, rfl⟩
      · exact ih s h

/-- C7: every produced segment's stored `word_count` is the number of
whitespace-separated words of its stored `content` and its
`character_count` is that content's length; and the assembled statistics
are the corresponding sums and the segment count. -/
theorem claim7_counts_and_statistics :
    (∀ content : List Char, ∀ s ∈ extract_content_sections content,
        s.wordCount = (splitWs s.content).length ∧ s.charCount = s.content.length) ∧
    (∀ secs : List Section,
        (mkStatistics secs).totalSections = secs.length ∧
        (mkStatistics secs).totalWords = (secs.map Section.wordCount).sum ∧
        (mkStatistics secs).totalCharacters = (secs.map Section.charCount).sum) := by
  constructor
  · intro content s hs
    simp only [extract_content_sections] at hs
    split at hs
    · rcases List.mem_singleton.mp hs with rfl
      exact ⟨rfl, rfl⟩
    · exact sectionsFrom_counts (splitLines content) _ s hs
  · intro secs
    exact ⟨rfl, rfl, rfl⟩

theorem claim7_witness :
    (Section.mk "content".data "Full Content".data "hello".data 1 1 1 5).wordCount =
      (splitWs (Section.mk "content".data "Full Content".data "hello".data 1 1 1 5).content).length ∧
    (Section.mk "content".data "Full Content".data "hello".data 1 1 1 5).charCount =
      (Section.mk "content".data "Full Content".data "hello".data 1 1 1 5).content.length :=
  claim7_counts_and_statistics.1 "hello".data _ (by decide)


/-- Splitting a whitespace-free word: the accumulator plus the word,
as a single word (nothing when both are empty). -/
theorem splitWsAux_no_ws (w : List Char) :
    ∀ acc : List Char, (∀ c ∈ w, isPySpace c = false) →
      splitWsAux w acc = if acc.isEmpty && w.isEmpty then [] else [acc.reverse ++ w] := by
  induction w with
  | nil =>
    intro acc _
    cases acc <;> simp [splitWsAux]
  | cons c ws ih =>
    intro acc h
    have hc : isPySpace c = false := h c (by simp)
    rw [splitWsAux, if_neg (by simp [hc]), ih (c :: acc) (fun d hd => h d (by simp [hd]))]
    simp

/-- Splitting across an explicit separating space splits independently on
the two sides. -/
theorem splitWsAux_append_space (b : List Char) :
    ∀ (a acc : List Char),
      splitWsAux (a ++ ' ' :: b) acc = splitWsAux a acc ++ splitWs b := by
  intro a
  induction a with
  | nil =>
    intro acc
    cases acc <;> simp [splitWsAux, splitWs, isPySpace]
  | cons c a' ih =>
    intro acc
    by_cases hc : isPySpace c = true <;> cases acc <;>
      simp [splitWsAux, hc, ih]

/-- Splitting across an explicit separating space, accumulator-free form. -/
theorem splitWs_append_space (a b : List Char) :
    splitWs (a ++ ' ' :: b) = splitWs a ++ splitWs b :=
  splitWsAux_append_space b a []

/-- Every word produced by `str.split()` is non-empty and free of
whitespace. -/
theorem splitWsAux_good (l : List Char) :
    ∀ acc : List Char, (∀ c ∈ acc, isPySpace c = false) →
      ∀ w ∈ splitWsAux l acc, w ≠ [] ∧ ∀ c ∈ w, isPySpace c = false := by
  induction l with
  | nil =>
    intro acc hacc w hw
    simp only [splitWsAux] at hw
    split at hw
    · simp at hw
    · next h =>
      rcases List.mem_singleton.mp hw with rfl
      refine ⟨by simpa using h, fun c hc => hacc c (List.mem_reverse.mp hc)⟩
  | cons c rest ih =>
    intro acc hacc w hw
    simp only [splitWsAux] at hw
    by_cases hc : isPySpace c = true
    · rw [if_pos hc] at hw
      split at hw
      · exact ih [] (by simp) w hw
      · next h =>
        rcases List.mem_cons.mp hw with rfl | hw'
        · exact ⟨by simpa using h, fun d hd => hacc d (List.mem_reverse.mp hd)⟩
        · exact ih [] (by simp) w hw'
    · rw [if_neg hc] at hw
      refine ih (c :: acc) ?_ w hw
      intro d hd
      rcases List.mem_cons.mp hd with rfl | hd'
      · simpa using hc
      · exact hacc d hd'

/-- Splitting the space-join of non-empty whitespace-free words recovers
exactly those words. -/
theorem splitWs_joinWords (ws : List (List Char)) :
    (∀ w ∈ ws, w ≠ [] ∧ ∀ c ∈ w, isPySpace c = false) →
      splitWs (joinWords ws) = ws := by
  induction ws with
  | nil => intro _; rfl
  | cons w rest ih =>
    intro h
    have hw := h w (by simp)
    have h1 : splitWsAux w [] = [w] := by
      rw [splitWsAux_no_ws w [] hw.2]
      simp [hw.1]
    cases rest with
    | nil => exact h1
    | cons w2 rest2 =>
      have h2 := ih (fun u hu => h u (List.mem_cons_of_mem _ hu))
      show splitWs (w ++ ' ' :: joinWords (w2 :: rest2)) = w :: w2 :: rest2
      rw [splitWs_append_space, h2]
      show splitWsAux w [] ++ w2 :: rest2 = w :: w2 :: rest2
      rw [h1]
      rfl

/-- The packing loop never returns an empty chunk list once the current
chunk is non-empty. -/
theorem chunkGo_ne_nil (cs : Int) :
    ∀ (ws cur : List (List Char)) (size : Int),
      cur ≠ [] → chunkGo cs ws cur size ≠ [] := by
  intro ws
  induction ws with
  | nil =>
    intro cur size h
    simp [chunkGo, h]
  | cons w ws' ih =>
    intro cur size h
    simp only [chunkGo]
    split
    · simp
    · exact ih (cur ++ [w]) _ (by simp)

/-- Invariant of the packing loop: splitting the space-join of the chunks
it returns yields the pending current chunk followed by the remaining
words, in order. -/
theorem chunkGo_words (cs : Int) :
    ∀ (ws cur : List (List Char)) (size : Int),
      (∀ w ∈ cur, w ≠ [] ∧ ∀ c ∈ w, isPySpace c = false) →
      (∀ w ∈ ws, w ≠ [] ∧ ∀ c ∈ w, isPySpace c = false) →
      splitWs (joinWords (chunkGo cs ws cur size)) = cur ++ ws := by
  intro ws
  induction ws with
  | nil =>
    intro cur size hcur _
    by_cases h : cur = []
    · subst h; rfl
    · simp only [chunkGo]
      rw [if_neg (by simpa using h)]
      show splitWs (joinWords cur) = cur ++ []
      rw [List.append_nil]
      exact splitWs_joinWords cur hcur
  | cons w ws' ih =>
    intro cur size hcur hws
    have hw := hws w (by simp)
    have hws' : ∀ u ∈ ws', u ≠ [] ∧ ∀ c ∈ u, isPySpace c = false :=
      fun u hu => hws u (by simp [hu])
    simp only [chunkGo]
    split
    · next hcond =>
      have hsingle : ∀ u ∈ [w], u ≠ [] ∧ ∀ c ∈ u, isPySpace c = false := by
        intro u hu
        rcases List.mem_singleton.mp hu with rfl
        exact hw
      have hR := ih [w] (w.length : Int) hsingle hws'
      obtain ⟨r, rs, hRr⟩ : ∃ r rs, chunkGo cs ws' [w] (w.length : Int) = r :: rs := by
        rcases hE : chunkGo cs ws' [w] (w.length : Int) with _ | ⟨r, rs⟩
        · exact absurd hE (chunkGo_ne_nil cs ws' [w] _ (by simp))
        · exact ⟨r, rs, rfl⟩
      rw [hRr] at hR ⊢
      show splitWs (joinWords cur ++ ' ' :: joinWords (r :: rs)) = cur ++ w :: ws'
      rw [splitWs_append_space, hR, splitWs_joinWords cur hcur]
      rfl
    · next hcond =>
      have hcur' : ∀ u ∈ cur ++ [w], u ≠ [] ∧ ∀ c ∈ u, isPySpace c = false := by
        intro u hu
        rcases List.mem_append.mp hu with h1 | h2
        · exact hcur u h1
        · rcases List.mem_singleton.mp h2 with rfl
          exact hw
      rw [ih (cur ++ [w]) _ hcur' hws']
      simp

/-- C10: `chunk_text` preserves the word sequence — for every text and
positive chunk size, splitting the single-space join of the returned
chunks yields exactly the word list of the original text. -/
theorem claim10_chunk_text_preserves_words (text : List Char) (chunkSize : Int)
    (_hpos : 0 < chunkSize) :
    splitWs (joinWords (chunk_text text chunkSize)) = splitWs text := by
  have h := chunkGo_words chunkSize (splitWs text) [] 0 (by simp)
    (fun w hw => splitWsAux_good text [] (by simp) w hw)
  simpa [chunk_text] using h

theorem claim10_witness :
    splitWs (joinWords (chunk_text "hello world again".data 7)) =
      splitWs "hello world again".data :=
  claim10_chunk_text_preserves_words "hello world again".data 7 (by decide)


/-- The head of `dropWhile p l`, when present, fails `p`. -/
theorem head?_dropWhile_false (p : Char → Bool) :
    ∀ (l : List Char) (c : Char), (l.dropWhile p).head? = some c → p c = false := by
  intro l
  induction l with
  | nil => intro c h; simp at h
  | cons a t ih =>
    intro c h
    rw [List.dropWhile_cons] at h
    split at h
    · exact ih c h
    · next hp =>
      have : a = c := by simpa using h
      subst this
      simpa using hp

/-- Characters of a stripped list come from the original list. -/
theorem stripL_subset (l : List Char) : ∀ c ∈ stripL l, c ∈ l := by
  intro c hc
  unfold stripL at hc
  rw [List.mem_reverse] at hc
  have h1 : c ∈ (l.dropWhile isPySpace).reverse :=
    List.IsSuffix.mem hc (List.dropWhile_suffix _)
  rw [List.mem_reverse] at h1
  exact List.IsSuffix.mem h1 (List.dropWhile_suffix _)

/-- A non-empty suffix has the same last element. -/
theorem IsSuffix.getLast?_eq {y z : List Char} (h : y <:+ z) {c : Char}
    (hy : y.getLast? = some c) : z.getLast? = some c := by
  obtain ⟨a, rfl⟩ := h
  rw [List.getLast?_append, hy]
  rfl

/-- A stripped list never starts with whitespace. -/
theorem stripL_head_nonspace (l : List Char) :
    ∀ c, (stripL l).head? = some c → isPySpace c = false := by
  intro c hc
  unfold stripL at hc
  rw [List.head?_reverse] at hc
  have h2 : ((l.dropWhile isPySpace).reverse).getLast? = some c :=
    IsSuffix.getLast?_eq (List.dropWhile_suffix _) hc
  rw [List.getLast?_reverse] at h2
  exact head?_dropWhile_false _ _ c h2

/-- A stripped list never ends with whitespace. -/
theorem stripL_getLast_nonspace (l : List Char) :
    ∀ c, (stripL l).getLast? = some c → isPySpace c = false := by
  intro c hc
  unfold stripL at hc
  rw [List.getLast?_reverse] at hc
  exact head?_dropWhile_false _ _ c hc

/-- Every whitespace character surviving whitespace collapsing is the
single space the run was replaced with. -/
theorem collapseWs_ws_space :
    ∀ l : List Char, ∀ c ∈ collapseWs l, isPySpace c = true → c = ' ' := by
  intro l
  induction l with
  | nil => intro c hc; simp [collapseWs] at hc
  | cons a t ih =>
    cases t with
    | nil =>
      intro c hc hws
      by_cases ha : isPySpace a = true
      · rw [show collapseWs [a] = [' '] from by simp [collapseWs, ha]] at hc
        simpa using hc
      · rw [show collapseWs [a] = [a] from by simp [collapseWs, ha]] at hc
        rcases List.mem_singleton.mp hc with rfl
        exact absurd hws (by simpa using ha)
    | cons b t2 =>
      intro c hc hws
      simp only [collapseWs] at hc
      by_cases ha : isPySpace a = true
      · rw [if_pos ha] at hc
        by_cases hb : isPySpace b = true
        · rw [if_pos hb] at hc
          exact ih c hc hws
        · rw [if_neg hb] at hc
          rcases List.mem_cons.mp hc with rfl | hc'
          · rfl
          · exact ih c hc' hws
      · rw [if_neg ha] at hc
        rcases List.mem_cons.mp hc with rfl | hc'
        · exact absurd hws (by simpa using ha)
        · exact ih c hc' hws

/-- Whitespace collapsing only keeps input characters or inserts the
single space. -/
theorem collapseWs_mem :
    ∀ l : List Char, ∀ c ∈ collapseWs l, c ∈ l ∨ c = ' ' := by
  intro l
  induction l with
  | nil => intro c hc; simp [collapseWs] at hc
  | cons a t ih =>
    cases t with
    | nil =>
      intro c hc
      by_cases ha : isPySpace a = true
      · rw [show collapseWs [a] = [' '] from by simp [collapseWs, ha]] at hc
        exact Or.inr (by simpa using hc)
      · rw [show collapseWs [a] = [a] from by simp [collapseWs, ha]] at hc
        rcases List.mem_singleton.mp hc with rfl
        exact Or.inl (by simp)
    | cons b t2 =>
      intro c hc
      simp only [collapseWs] at hc
      by_cases ha : isPySpace a = true
      · rw [if_pos ha] at hc
        by_cases hb : isPySpace b = true
        · rw [if_pos hb] at hc
          rcases ih c hc with h | h
          · exact Or.inl (List.mem_cons_of_mem _ h)
          · exact Or.inr h
        · rw [if_neg hb] at hc
          rcases List.mem_cons.mp hc with rfl | hc'
          · exact Or.inr rfl
          · rcases ih c hc' with h | h
            · exact Or.inl (List.mem_cons_of_mem _ h)
            · exact Or.inr h
      · rw [if_neg ha] at hc
        rcases List.mem_cons.mp hc with rfl | hc'
        · exact Or.inl (by simp)
        · rcases ih c hc' with h | h
          · exact Or.inl (List.mem_cons_of_mem _ h)
          · exact Or.inr h

/-- Whitespace collapsing never empties a non-empty list. -/
theorem collapseWs_ne_nil : ∀ l : List Char, l ≠ [] → collapseWs l ≠ [] := by
  intro l
  induction l with
  | nil => intro h; exact absurd rfl h
  | cons a t ih =>
    intro _
    cases t with
    | nil => by_cases ha : isPySpace a = true <;> simp [collapseWs, ha]
    | cons b t2 =>
      simp only [collapseWs]
      by_cases ha : isPySpace a = true
      · rw [if_pos ha]
        by_cases hb : isPySpace b = true
        · rw [if_pos hb]
          exact ih (by simp)
        · rw [if_neg hb]
          simp
      · rw [if_neg ha]
        simp

/-- Whitespace collapsing keeps a non-whitespace head in place. -/
theorem collapseWs_head (a : Char) (t : List Char) (ha : isPySpace a = false) :
    (collapseWs (a :: t)).head? = some a := by
  cases t <;> simp [collapseWs, ha]

/-- Whitespace collapsing keeps a non-whitespace last element in place. -/
theorem collapseWs_getLast :
    ∀ (l : List Char) (c : Char), l.getLast? = some c → isPySpace c = false →
      (collapseWs l).getLast? = some c := by
  intro l
  induction l with
  | nil => intro c hc _; simp at hc
  | cons a t ih =>
    cases t with
    | nil =>
      intro c hc hcs
      have : a = c := by simpa using hc
      subst this
      simp [collapseWs, hcs]
    | cons b t2 =>
      intro c hc hcs
      have hc' : (b :: t2).getLast? = some c := by
        rwa [List.getLast?_cons_cons] at hc
      have ht := ih c hc' hcs
      have hne : collapseWs (b :: t2) ≠ [] := collapseWs_ne_nil _ (by simp)
      obtain ⟨x, xs, hx⟩ : ∃ x xs, collapseWs (b :: t2) = x :: xs := by
        rcases hE : collapseWs (b :: t2) with _ | ⟨x, xs⟩
        · exact absurd hE hne
        · exact ⟨x, xs, rfl⟩
      simp only [collapseWs]
      by_cases ha : isPySpace a = true
      · rw [if_pos ha]
        by_cases hb : isPySpace b = true
        · rw [if_pos hb]
          exact ht
        · rw [if_neg hb]
          rw [hx] at ht ⊢
          rwa [List.getLast?_cons_cons]
      · rw [if_neg ha]
        rw [hx] at ht ⊢
        rwa [List.getLast?_cons_cons]

/-- Whitespace collapsing leaves no two adjacent whitespace characters. -/
theorem collapseWs_no_double :
    ∀ l : List Char, hasDoubleWs (collapseWs l) = false := by
  intro l
  induction l with
  | nil => rfl
  | cons a t ih =>
    cases t with
    | nil => by_cases ha : isPySpace a = true <;> simp [collapseWs, ha, hasDoubleWs]
    | cons b t2 =>
      simp only [collapseWs]
      by_cases ha : isPySpace a = true
      · rw [if_pos ha]
        by_cases hb : isPySpace b = true
        · rw [if_pos hb]
          exact ih
        · rw [if_neg hb]
          have hb' : isPySpace b = false := by simpa using hb
          have hh := collapseWs_head b t2 hb'
          obtain ⟨xs, hx⟩ : ∃ xs, collapseWs (b :: t2) = b :: xs := by
            rcases hE : collapseWs (b :: t2) with _ | ⟨x, xs⟩
            · rw [hE] at hh
              simp at hh
            · rw [hE] at hh
              have hxb : x = b := by simpa using hh
              exact ⟨xs, by rw [hxb]⟩
          rw [hx]
          have ih' := ih
          rw [hx] at ih'
          simp only [hasDoubleWs]
          simp [hb', ih']
      · rw [if_neg ha]
        have ha' : isPySpace a = false := by simpa using ha
        rcases hE : collapseWs (b :: t2) with _ | ⟨x, xs⟩
        · rfl
        · have ih' := ih
          rw [hE] at ih'
          simp only [hasDoubleWs]
          simp [ha', ih']

/-- Every character of `dropThroughClose`'s output comes from its input. -/
theorem dropThroughClose_subset (l r : List Char) (h : dropThroughClose l = some r) :
    ∀ c ∈ r, c ∈ l := by
  rcases hE : l.dropWhile (fun c => c ≠ spanClose) with _ | ⟨x, xs⟩
  · simp only [dropThroughClose, hE] at h
    exact absurd h (by simp)
  · simp only [dropThroughClose, hE] at h
    have hxr : xs = r := by simpa using h
    subst hxr
    intro c hc
    have hmem : c ∈ x :: xs := List.mem_cons_of_mem _ hc
    rw [← hE] at hmem
    exact List.IsSuffix.mem hmem (List.dropWhile_suffix _)

/-- Annotation-span removal only deletes characters. -/
theorem removeSpansFuel_subset :
    ∀ (n : Nat) (l : List Char), ∀ c ∈ removeSpansFuel n l, c ∈ l := by
  intro n
  induction n with
  | zero => intro l c hc; simp [removeSpansFuel] at hc
  | succ n ih =>
    intro l c hc
    cases l with
    | nil => simp [removeSpansFuel] at hc
    | cons a rest =>
      simp only [removeSpansFuel] at hc
      by_cases ha : a = spanOpen
      · rw [if_pos ha] at hc
        rcases hD : dropThroughClose rest with _ | rest2
        · rw [hD] at hc
          rcases List.mem_cons.mp hc with rfl | hc'
          · exact List.mem_cons_self _ _
          · exact List.mem_cons_of_mem _ (ih rest c hc')
        · rw [hD] at hc
          exact List.mem_cons_of_mem _
            (dropThroughClose_subset rest rest2 hD c (ih rest2 c hc))
      · rw [if_neg ha] at hc
        rcases List.mem_cons.mp hc with rfl | hc'
        · exact List.mem_cons_self _ _
        · exact List.mem_cons_of_mem _ (ih rest c hc')

/-- Annotation-span removal is the identity when no `⟪` occurs and the
fuel dominates the length. -/
theorem removeSpansFuel_id :
    ∀ (n : Nat) (l : List Char), spanOpen ∉ l → l.length ≤ n →
      removeSpansFuel n l = l := by
  intro n
  induction n with
  | zero =>
    intro l _ hlen
    have : l = [] := List.eq_nil_of_length_eq_zero (Nat.le_zero.mp hlen)
    subst this
    rfl
  | succ n ih =>
    intro l h hlen
    cases l with
    | nil => rfl
    | cons a rest =>
      simp only [removeSpansFuel]
      rw [if_neg (by intro hEq; subst hEq; exact h (List.mem_cons_self _ _))]
      rw [ih rest (fun hm => h (List.mem_cons_of_mem _ hm))
        (by simp only [List.length_cons] at hlen; omega)]

/-- Every whitespace character of `clean_text`'s output is the single
space character. -/
theorem clean_text_ws_space (t : List Char) :
    ∀ c ∈ clean_text t, isPySpace c = true → c = ' ' := by
  intro c hc hws
  have h1 : c ∈ removeSpans (collapseWs (stripL t)) := (List.mem_filter.mp hc).1
  have h2 : c ∈ collapseWs (stripL t) := removeSpansFuel_subset _ _ c h1
  exact collapseWs_ws_space _ c h2 hws


/-- C5 is false as stated: deleting a filtered-out character that sits
between two spaces leaves two adjacent spaces, because the whitespace
collapse runs BEFORE the character filter; `clean_text "a @ b"` is
`"a  b"` with a double space. -/
theorem claim5_counterexample :
    clean_text "a @ b".data = "a  b".data ∧
    c5ClaimOk (clean_text "a @ b".data) = false := by
  refine ⟨?_, ?_⟩ <;> decide

/-- C5 amended: every whitespace character of `clean_text`'s output is a
single space (in particular no newline survives); the stronger claims —
no whitespace run of length ≥ 2 and no leading or trailing whitespace —
hold whenever every input character is kept by the final filter, but can
fail when deletions occur next to whitespace. -/
theorem claim5_amended (t : List Char) :
    (clean_text t).all (fun c => !isPySpace c || (c == ' ')) = true ∧
    '\n' ∉ clean_text t ∧
    (t.all keepChar = true → c5ClaimOk (clean_text t) = true) := by
  refine ⟨?_, ?_, ?_⟩
  · rw [List.all_eq_true]
    intro c hc
    by_cases hws : isPySpace c = true
    · have h := clean_text_ws_space t c hc hws
      subst h
      simp
    · have h : isPySpace c = false := by simpa using hws
      simp [h]
  · intro hmem
    have h := clean_text_ws_space t '\n' hmem (by decide)
    exact absurd h (by decide)
  · intro hall
    have hkeep1 : ∀ c ∈ stripL t, keepChar c = true := fun c hc =>
      List.all_eq_true.mp hall c (stripL_subset t c hc)
    have hkeep2 : ∀ c ∈ collapseWs (stripL t), keepChar c = true := by
      intro c hc
      rcases collapseWs_mem _ c hc with h | rfl
      · exact hkeep1 c h
      · decide
    have hopen : spanOpen ∉ collapseWs (stripL t) := by
      intro hmem
      exact absurd (hkeep2 _ hmem) (by decide)
    have hrs : removeSpans (collapseWs (stripL t)) = collapseWs (stripL t) :=
      removeSpansFuel_id _ _ hopen le_rfl
    have hfil : clean_text t = collapseWs (stripL t) := by
      show List.filter keepChar (removeSpans (collapseWs (stripL t))) = _
      rw [hrs, List.filter_eq_self.mpr hkeep2]
    have hA := collapseWs_no_double (stripL t)
    have hB : (collapseWs (stripL t)).all (fun c => !(c == '\n')) = true := by
      rw [List.all_eq_true]
      intro c hc
      by_cases hnl : c = '\n'
      · subst hnl
        exact absurd (collapseWs_ws_space _ _ hc (by decide)) (by decide)
      · simp [hnl]
    have hC : ∀ c, (collapseWs (stripL t)).head? = some c → isPySpace c = false := by
      intro c hc
      rcases hS : stripL t with _ | ⟨d, ds⟩
      · rw [hS] at hc
        simp [collapseWs] at hc
      · have hd : isPySpace d = false := stripL_head_nonspace t d (by rw [hS]; rfl)
        rw [hS, collapseWs_head d ds hd] at hc
        have hdc : d = c := by simpa using hc
        subst hdc
        exact hd
    have hD : ∀ c, (collapseWs (stripL t)).getLast? = some c → isPySpace c = false := by
      intro c hc
      rcases hS : stripL t with _ | ⟨d, ds⟩
      · rw [hS] at hc
        simp [collapseWs] at hc
      · rcases hG : (d :: ds).getLast? with _ | e
        · rw [List.getLast?_eq_none_iff] at hG
          exact absurd hG (by simp)
        · have he : isPySpace e = false :=
            stripL_getLast_nonspace t e (by rw [hS]; exact hG)
          rw [hS, collapseWs_getLast (d :: ds) e hG he] at hc
          have hec : e = c := by simpa using hc
          subst hec
          exact he
    have hCm : (match (collapseWs (stripL t)).head? with
        | some c => !isPySpace c | none => true) = true := by
      rcases hH : (collapseWs (stripL t)).head? with _ | c
      · rfl
      · simp [hC c hH]
    have hDm : (match (collapseWs (stripL t)).getLast? with
        | some c => !isPySpace c | none => true) = true := by
      rcases hG : (collapseWs (stripL t)).getLast? with _ | c
      · rfl
      · simp [hD c hG]
    rw [hfil]
    unfold c5ClaimOk
    rw [hA, hB, hCm, hDm]
    rfl

theorem claim5_witness : c5ClaimOk (clean_text "  a\n\nb  c ".data) = true :=
  (claim5_amended "  a\n\nb  c ".data).2.2 (by decide)

end BookConv
